import Mathlib

/-!
Verification development for the version-scoped commit engine of
cargo-version-info (src/commands/bump/{diff,index,tree}.rs).

Rust strings are modelled as lists of characters and byte-string paths as
lists of naturals.  The definitions named after repository functions are
direct translations of those functions; the definitions whose names carry
Spec restate the specification's wording, for the refinement theorems that
compare the two.
-/

namespace VersionInfo

/-- One line of text, including its terminator, as produced by the line
splitter of the diff library. -/
abbrev Line := List Char

/-- Tag of one change of a two-way line diff (similar::ChangeTag). -/
inductive Tag where
  | Equal
  | Delete
  | Insert
deriving DecidableEq

/-- One change of a line diff: a tag together with the line value. -/
abbrev Change := Tag × Line

/-- Split text into lines, each keeping its trailing newline, the way
similar::TextDiff::from_lines tokenizes its inputs. -/
def splitLines : List Char → List Line
  | [] => []
  | c :: rest =>
    if c = '\n' then [c] :: splitLines rest
    else
      match splitLines rest with
      | [] => [[c]]
      | l :: ls => (c :: l) :: ls

/-- Test that sub occurs at the start of hay (the prefix check behind the
substring search of str::contains). -/
def startsWithSub : List Char → List Char → Bool
  | [], _ => true
  | _ :: _, [] => false
  | c :: cs, d :: ds => c = d && startsWithSub cs ds

/-- Test that sub occurs somewhere in hay, modelling Rust str::contains. -/
def str_contains : List Char → List Char → Bool
  | [], sub => startsWithSub sub []
  | c :: t, sub => startsWithSub sub (c :: t) || str_contains t sub

/-- The literal keyword the classifier looks for in a line. -/
def versionWord : List Char := "version".toList

/-- Version-relatedness exactly as computed inside apply_version_hunks and
has_non_version_changes: the line contains "version", the old version or
the new version. -/
def is_version_related (line old_version new_version : Line) : Bool :=
  str_contains line versionWord || str_contains line old_version ||
    str_contains line new_version

/-- Longest-common-subsequence length, inner recursion: the first list is
fixed to a :: (domain of rec) while the second list shrinks. -/
def lcsWith (a : Line) (rec : List Line → Nat) : List Line → Nat
  | [] => 0
  | b :: bs => if a = b then rec bs + 1 else max (rec (b :: bs)) (lcsWith a rec bs)

/-- Length of a longest common subsequence of two line lists. -/
def lcsLen : List Line → List Line → Nat
  | [], _ => 0
  | a :: as, bs => lcsWith a (lcsLen as) bs

/-- Line diff, inner recursion with the head of the old side fixed.
rec computes the diff of the old-side tail against any new side, and
lcsRest the LCS length of the old-side tail against any new side. -/
def diffWith (a : Line) (rec : List Line → List Change) (lcsRest : List Line → Nat) :
    List Line → List Change
  | [] => (Tag.Delete, a) :: rec []
  | b :: bs =>
    if a = b then (Tag.Equal, a) :: rec bs
    else if lcsWith a lcsRest bs ≤ lcsRest (b :: bs)
    then (Tag.Delete, a) :: rec (b :: bs)
    else (Tag.Insert, b) :: diffWith a rec lcsRest bs

/-- Line diff in the style of similar::TextDiff::from_lines: a total
ordering of Equal, Delete and Insert changes aligning the two line lists
along a longest common subsequence. -/
def diff : List Line → List Line → List Change
  | [], bs => bs.map (fun b => (Tag.Insert, b))
  | a :: as, bs => diffWith a (diff as) (lcsLen as) bs

/-- Translation of apply_version_hunks (src/commands/bump/diff.rs): walk
all changes of the line diff of head against working, pushing Equal lines
always, Delete lines only when not version-related and Insert lines only
when version-related, then concatenate the kept lines. -/
def apply_version_hunks
    (head_content working_content old_version new_version : List Char) : List Char :=
  let changes := diff (splitLines head_content) (splitLines working_content)
  let result := changes.foldl
    (fun result change =>
      let line := change.2
      let related := is_version_related line old_version new_version
      match change.1 with
      | Tag.Equal => result ++ [line]
      | Tag.Delete => if related then result else result ++ [line]
      | Tag.Insert => if related then result ++ [line] else result)
    []
  result.flatten

/-- Translation of has_non_version_changes (src/commands/bump/diff.rs):
true iff some Delete or Insert change of the line diff is not
version-related. -/
def has_non_version_changes
    (head_content working_content old_version new_version : List Char) : Bool :=
  (diff (splitLines head_content) (splitLines working_content)).any
    (fun change =>
      (match change.1 with
       | Tag.Delete => true
       | Tag.Insert => true
       | Tag.Equal => false)
      && !(is_version_related change.2 old_version new_version))

/-- Containment of one character list in another, written out the way the
specification speaks of a line containing a string. -/
def ContainsSub (hay sub : List Char) : Prop :=
  ∃ s t, s ++ sub ++ t = hay

/-- ClassificationRule as the specification words it: a line is
version-related iff it contains "version", the old version or the new
version. -/
def IsVersionRelatedSpec (line old_version new_version : Line) : Prop :=
  ContainsSub line versionWord ∨ ContainsSub line old_version ∨
    ContainsSub line new_version

theorem startsWithSub_iff (sub hay : List Char) :
    startsWithSub sub hay = true ↔ ∃ t, sub ++ t = hay := by
  induction sub generalizing hay with
  | nil => simp [startsWithSub]
  | cons c cs ih =>
    cases hay with
    | nil => simp [startsWithSub]
    | cons d ds =>
      simp only [startsWithSub, Bool.and_eq_true, decide_eq_true_eq, ih]
      constructor
      · rintro ⟨rfl, t, rfl⟩
        exact ⟨t, rfl⟩
      · rintro ⟨t, h⟩
        injection h with h1 h2
        exact ⟨h1, t, h2⟩

theorem str_contains_iff (hay sub : List Char) :
    str_contains hay sub = true ↔ ContainsSub hay sub := by
  induction hay with
  | nil =>
    simp only [str_contains, startsWithSub_iff, ContainsSub]
    constructor
    · rintro ⟨t, h⟩
      exact ⟨[], t, by simpa using h⟩
    · rintro ⟨s, t, h⟩
      rcases List.append_eq_nil.mp h with ⟨h1, h2⟩
      rcases List.append_eq_nil.mp h1 with ⟨h3, h4⟩
      exact ⟨t, by simp [h2, h4]⟩
  | cons c t ih =>
    simp only [str_contains, Bool.or_eq_true, startsWithSub_iff, ih, ContainsSub]
    constructor
    · rintro (⟨u, h⟩ | ⟨s, u, h⟩)
      · exact ⟨[], u, by simpa using h⟩
      · exact ⟨c :: s, u, by simp [← h]⟩
    · rintro ⟨s, u, h⟩
      cases s with
      | nil => exact Or.inl ⟨u, by simpa using h⟩
      | cons s0 srest =>
        injection h with h1 h2
        exact Or.inr ⟨srest, u, h2⟩

instance (line old_version new_version : Line) :
    Decidable (IsVersionRelatedSpec line old_version new_version) :=
  decidable_of_iff
    (is_version_related line old_version new_version = true)
    (by
      simp only [is_version_related, Bool.or_eq_true, str_contains_iff,
        IsVersionRelatedSpec, or_assoc])

/-- Emission rule of the specification: an Equal line is always emitted, a
Delete line iff it is not version-related, an Insert line iff it is
version-related. -/
def emitSpec (old_version new_version : Line) (change : Change) : List Line :=
  match change.1 with
  | Tag.Equal => [change.2]
  | Tag.Delete =>
    if IsVersionRelatedSpec change.2 old_version new_version then [] else [change.2]
  | Tag.Insert =>
    if IsVersionRelatedSpec change.2 old_version new_version then [change.2] else []

/-- apply_version_hunks as the specification words it: the concatenation
of a fold of the emission rule over the line diff, in diff order. -/
def apply_version_hunks_spec
    (head_content working_content old_version new_version : List Char) : List Char :=
  ((diff (splitLines head_content) (splitLines working_content)).flatMap
    (emitSpec old_version new_version)).flatten

theorem foldl_append_flatMap {α β : Type} (g : α → List β) :
    ∀ (l : List α) (init : List β),
      l.foldl (fun r x => r ++ g x) init = init ++ l.flatMap g
  | [], init => by simp
  | x :: l, init => by
    simp [List.foldl_cons, foldl_append_flatMap g l, List.flatMap_cons, List.append_assoc]

theorem isVersionRelatedSpec_iff (line old_version new_version : Line) :
    IsVersionRelatedSpec line old_version new_version ↔
      is_version_related line old_version new_version = true := by
  simp only [IsVersionRelatedSpec, is_version_related, Bool.or_eq_true, str_contains_iff,
    or_assoc]

theorem foldl_emit_eq (old_version new_version : Line) :
    ∀ (changes : List Change) (init : List Line),
      changes.foldl
        (fun result change =>
          match change.1 with
          | Tag.Equal => result ++ [change.2]
          | Tag.Delete =>
            if is_version_related change.2 old_version new_version then result
            else result ++ [change.2]
          | Tag.Insert =>
            if is_version_related change.2 old_version new_version then result ++ [change.2]
            else result)
        init
      = init ++ changes.flatMap (emitSpec old_version new_version)
  | [], init => by simp
  | c :: cs, init => by
    obtain ⟨tag, line⟩ := c
    by_cases hrel : is_version_related line old_version new_version = true
    · have hrelSpec := (isVersionRelatedSpec_iff line old_version new_version).mpr hrel
      cases tag <;>
        simp [List.foldl_cons, foldl_emit_eq old_version new_version cs, emitSpec,
          List.flatMap_cons, List.append_assoc, hrel, hrelSpec]
    · have hrelSpec := (isVersionRelatedSpec_iff line old_version new_version).not.mpr hrel
      cases tag <;>
        simp [List.foldl_cons, foldl_emit_eq old_version new_version cs, emitSpec,
          List.flatMap_cons, List.append_assoc, hrel, hrelSpec]

/-- Selector for the lines that survive on the new side of a diff: Equal
and Insert values, never Delete values. -/
def keepLine (change : Change) : Option Line :=
  match change.1 with
  | Tag.Delete => none
  | Tag.Equal => some change.2
  | Tag.Insert => some change.2

theorem diff_filterMap_newSide : ∀ (a b : List Line), (diff a b).filterMap keepLine = b := by
  intro a
  induction a with
  | nil =>
    intro b
    simp only [diff, List.filterMap_map]
    induction b with
    | nil => simp
    | cons x xs ihb => simpa [keepLine] using ihb
  | cons a as ih =>
    intro b
    show (diffWith a (diff as) (lcsLen as) b).filterMap keepLine = b
    induction b with
    | nil => simp [diffWith, keepLine, ih]
    | cons b bs ihb =>
      by_cases hab : a = b
      · subst hab
        simp [diffWith, keepLine, ih]
      · by_cases hc : lcsWith a (lcsLen as) bs ≤ lcsLen as (b :: bs)
        · simp [diffWith, hab, hc, keepLine, ih]
        · simp [diffWith, hab, hc, keepLine, ihb]

theorem splitLines_ne_nil (c : Char) (t : List Char) : splitLines (c :: t) ≠ [] := by
  simp only [splitLines]
  split
  · simp
  · split <;> simp

theorem flatten_splitLines : ∀ (s : List Char), (splitLines s).flatten = s := by
  intro s
  induction s with
  | nil => rfl
  | cons c rest ih =>
    by_cases h : c = '\n'
    · simp [splitLines, h, ih]
    · simp only [splitLines, if_neg h]
      cases hsp : splitLines rest with
      | nil =>
        cases rest with
        | nil => simp
        | cons d t => exact absurd hsp (splitLines_ne_nil d t)
      | cons l ls =>
        rw [hsp] at ih
        simp only [List.flatten_cons] at ih ⊢
        simp [← ih]

theorem flatMap_emit_of_related (old_version new_version : Line) :
    ∀ (d : List Change),
      (∀ c ∈ d, c.1 ≠ Tag.Equal → IsVersionRelatedSpec c.2 old_version new_version) →
      d.flatMap (emitSpec old_version new_version) = d.filterMap keepLine := by
  intro d
  induction d with
  | nil => simp
  | cons c cs ih =>
    intro hall
    obtain ⟨tag, line⟩ := c
    have hcs := fun c hc => hall c (List.mem_cons_of_mem _ hc)
    cases tag with
    | Equal => simp [emitSpec, keepLine, ih hcs]
    | Delete =>
      have hrel : IsVersionRelatedSpec line old_version new_version :=
        hall _ (List.mem_cons_self _ _) (by simp)
      simp [emitSpec, keepLine, if_pos hrel, ih hcs]
    | Insert =>
      have hrel : IsVersionRelatedSpec line old_version new_version :=
        hall _ (List.mem_cons_self _ _) (by simp)
      simp [emitSpec, keepLine, if_pos hrel, ih hcs]

/-- C1: for every head content, working content, old version and new
version, apply_version_hunks returns the concatenation of a fold over the
line diff of head against working in diff order, where an Equal line is
always emitted, a Delete line is emitted iff it is not version-related, an
Insert line is emitted iff it is version-related, and a line is
version-related iff it contains the substring "version" or contains the
old version or contains the new version. -/
theorem apply_version_hunks_eq_spec
    (head_content working_content old_version new_version : List Char) :
    apply_version_hunks head_content working_content old_version new_version =
      apply_version_hunks_spec head_content working_content old_version new_version := by
  simp only [apply_version_hunks, apply_version_hunks_spec]
  rw [foldl_emit_eq]
  simp

/-- C3: has_non_version_changes is false iff every Delete or Insert change
of the line diff of head against working is version-related; in particular
it is false when the diff has no Delete or Insert changes at all. -/
theorem has_non_version_changes_false_iff
    (head_content working_content old_version new_version : List Char) :
    has_non_version_changes head_content working_content old_version new_version = false ↔
      ∀ c ∈ diff (splitLines head_content) (splitLines working_content),
        (c.1 = Tag.Delete ∨ c.1 = Tag.Insert) →
          IsVersionRelatedSpec c.2 old_version new_version := by
  constructor
  · intro hfalse c hc htag
    rw [isVersionRelatedSpec_iff]
    by_contra hrel
    have htrue :
        has_non_version_changes head_content working_content old_version new_version = true := by
      unfold has_non_version_changes
      rw [List.any_eq_true]
      refine ⟨c, hc, ?_⟩
      obtain ⟨tag, line⟩ := c
      rcases htag with h1 | h1 <;> (subst h1; simp_all)
    rw [htrue] at hfalse
    cases hfalse
  · intro hall
    apply Bool.eq_false_iff.mpr
    intro htrue
    unfold has_non_version_changes at htrue
    rw [List.any_eq_true] at htrue
    obtain ⟨c, hc, hcp⟩ := htrue
    obtain ⟨tag, line⟩ := c
    rw [Bool.and_eq_true] at hcp
    obtain ⟨htag, hrel⟩ := hcp
    cases tag with
    | Equal => cases htag
    | Delete =>
      have hv := (isVersionRelatedSpec_iff line old_version new_version).mp
        (hall _ hc (Or.inl rfl))
      simp [hv] at hrel
    | Insert =>
      have hv := (isVersionRelatedSpec_iff line old_version new_version).mp
        (hall _ hc (Or.inr rfl))
      simp [hv] at hrel

/-- C5: when every Delete or Insert change of the line diff of head
against working is version-related — the two contents differ only in
version-token edits — apply_version_hunks returns the working content
exactly; when head equals working this gives back that common content. -/
theorem apply_version_hunks_of_only_version_edits
    (head_content working_content old_version new_version : List Char)
    (hyp : ∀ c ∈ diff (splitLines head_content) (splitLines working_content),
      c.1 ≠ Tag.Equal → IsVersionRelatedSpec c.2 old_version new_version) :
    apply_version_hunks head_content working_content old_version new_version =
      working_content := by
  simp only [apply_version_hunks]
  rw [foldl_emit_eq]
  rw [List.nil_append, flatMap_emit_of_related old_version new_version _ hyp]
  rw [diff_filterMap_newSide, flatten_splitLines]

/-- Witness for C5 at a concrete pure version edit. -/
theorem apply_version_hunks_of_only_version_edits_witness :
    apply_version_hunks
      ("a\nversion 1\n".toList) ("a\nversion 2\n".toList) ("1".toList) ("2".toList) =
      "a\nversion 2\n".toList :=
  apply_version_hunks_of_only_version_edits
    ("a\nversion 1\n".toList) ("a\nversion 2\n".toList) ("1".toList) ("2".toList)
    (by decide)

/-- Change-detection metadata of one index entry (gix::index::entry::Stat);
Stat::default zeroes every field. -/
structure Stat where
  mtimeSecs : Nat
  mtimeNsecs : Nat
  ctimeSecs : Nat
  ctimeNsecs : Nat
  dev : Nat
  ino : Nat
  uid : Nat
  gid : Nat
  size : Nat
deriving DecidableEq

/-- Stat::default: all fields zero. -/
def Stat.zeroed : Stat := ⟨0, 0, 0, 0, 0, 0, 0, 0, 0⟩

/-- Index entry mode bits: Mode::FILE, a regular file (octal 100644). -/
def modeFILE : Nat := 0o100644

/-- Index entry mode bits: Mode::FILE_EXECUTABLE (octal 100755). -/
def modeFILE_EXECUTABLE : Nat := 0o100755

/-- Index entry mode bits: Mode::SYMLINK (octal 120000). -/
def modeSYMLINK : Nat := 0o120000

/-- Index entry mode bits: Mode::DIR (octal 040000). -/
def modeDIR : Nat := 0o040000

/-- Index entry mode bits: Mode::COMMIT, a gitlink (octal 160000). -/
def modeCOMMIT : Nat := 0o160000

/-- Flags::empty() of an index entry. -/
def flagsEmpty : Nat := 0

/-- One entry of the git index (gix::index::Entry): path as a byte string,
object id of the staged content, mode bits, flags and stat metadata.
Object ids are modelled as naturals. -/
structure IndexEntry where
  stat : Stat
  id : Nat
  flags : Nat
  mode : Nat
  path : List Nat
deriving DecidableEq

/-- The in-memory index state (gix::index::State): the ordered list of
entries. -/
abbrev IndexState := List IndexEntry

/-- Entry comparator of State::sort_entries: lexicographic byte order of
the paths (the order of Entry::cmp). -/
def entryLe (a b : IndexEntry) : Prop := a.path ≤ b.path

instance : DecidableRel entryLe := fun a b =>
  inferInstanceAs (Decidable (a.path ≤ b.path))

instance : IsTotal IndexEntry entryLe := ⟨fun a b => le_total a.path b.path⟩

instance : IsTrans IndexEntry entryLe := ⟨fun _ _ _ h1 h2 => le_trans h1 h2⟩

/-- State::sort_entries: a stable sort of the entries under the path
comparator. -/
def sort_entries (entries : List IndexEntry) : List IndexEntry :=
  entries.insertionSort entryLe

/-- Iterator::position over the entries (entries().iter().position(pred)):
index of the first entry satisfying the predicate, if any. -/
def entryPosition (pred : IndexEntry → Bool) : List IndexEntry → Option Nat
  | [] => none
  | e :: rest => if pred e then some 0 else (entryPosition pred rest).map (· + 1)

/-- The entry that stage_file pushes for the staged path: default stat,
the blob id, empty flags and Mode::FILE. -/
def stagedEntry (relative_path : List Nat) (blob_id : Nat) : IndexEntry :=
  ⟨Stat.zeroed, blob_id, flagsEmpty, modeFILE, relative_path⟩

/-- Translation of the state transformation of stage_file
(src/commands/bump/index.rs): remove the first entry whose path equals the
staged path, copy all remaining entries into a fresh state, push a new
entry with default stat, the blob id, empty flags and Mode::FILE, then
sort the entries. -/
def stage_file (relative_path : List Nat) (blob_id : Nat)
    (existing_state : IndexState) : IndexState :=
  let existing_state :=
    match entryPosition (fun e => e.path = relative_path) existing_state with
    | some pos => existing_state.eraseIdx pos
    | none => existing_state
  let new_state := existing_state ++ [stagedEntry relative_path blob_id]
  sort_entries new_state

/-- A sequence of stage operations, folded over the state the way repeated
stage_file calls thread the returned State. -/
def stageSeq (ops : List (List Nat × Nat)) (s : IndexState) : IndexState :=
  ops.foldl (fun st op => stage_file op.1 op.2 st) s

/-- The index invariant of the specification: entries strictly increasing
in byte order of path, which also rules out duplicate paths. -/
def StrictSorted (s : IndexState) : Prop :=
  s.Pairwise (fun a b => a.path < b.path)

instance (s : IndexState) : Decidable (StrictSorted s) :=
  inferInstanceAs (Decidable (s.Pairwise (fun a b : IndexEntry => a.path < b.path)))

/-- Filesystem operations, to state what the persist step of staging does
on disk. -/
inductive FsOp where
  | create (path : List Nat)
  | writeAll (path : List Nat) (bytes : List Nat)
  | rename (src : List Nat) (dst : List Nat)
deriving DecidableEq

/-- The path an operation acts on (its destination for a rename). -/
def FsOp.target : FsOp → List Nat
  | FsOp.create p => p
  | FsOp.writeAll p _ => p
  | FsOp.rename _ p => p

/-- Whether an operation is a rename. -/
def FsOp.isRenameOp : FsOp → Bool
  | FsOp.rename _ _ => true
  | _ => false

/-- Translation of the persist step of stage_file
(src/commands/bump/index.rs, File::create + State::write_to): create or
truncate the index file itself, then write the serialized state into it. -/
def stage_file_persist_ops (index_path : List Nat) (serialized : List Nat) : List FsOp :=
  [FsOp.create index_path, FsOp.writeAll index_path serialized]

/-- Atomic persistence as the specification words it: the state is first
written to a temporary file distinct from the index path, which is then
renamed over the index path; the index path itself is never created or
written directly. -/
def AtomicPersistSpec (ops : List FsOp) (index_path : List Nat) : Prop :=
  (∃ tmp, tmp ≠ index_path ∧ FsOp.rename tmp index_path ∈ ops) ∧
    ∀ op ∈ ops, op.isRenameOp = false → op.target ≠ index_path

/-- Split a byte path on the directory separator (the split on b
equal to 47 in build_tree_from_index), separators dropped; an empty path
yields one empty segment, as slice::split does. -/
def splitSep : List Nat → List (List Nat)
  | [] => [[]]
  | b :: rest =>
    if b = 47 then [] :: splitSep rest
    else
      match splitSep rest with
      | [] => [[b]]
      | l :: ls => (b :: l) :: ls

/-- Rejoin path parts with the directory separator (the join on 47 that
rebuilds a flattened filename). -/
def joinSep : List (List Nat) → List Nat
  | [] => []
  | [l] => l
  | l :: ls => l ++ 47 :: joinSep ls

/-- Tree entry mode for a plain blob (EntryKind::Blob, octal 100644). -/
def treeModeBlob : Nat := 0o100644

/-- Tree entry mode for an executable blob (EntryKind::BlobExecutable). -/
def treeModeBlobExecutable : Nat := 0o100755

/-- Tree entry mode for a symlink (EntryKind::Link). -/
def treeModeLink : Nat := 0o120000

/-- Tree entry mode for a subtree (EntryKind::Tree). -/
def treeModeTree : Nat := 0o040000

/-- Tree entry mode for a submodule commit link (EntryKind::Commit). -/
def treeModeCommit : Nat := 0o160000

/-- Translation of convert_mode_to_tree_mode (src/commands/bump/tree.rs):
match on the exact index mode bits, every unrecognized mode falling back
to a plain blob. -/
def convert_mode_to_tree_mode (mode : Nat) : Nat :=
  if mode = modeFILE then treeModeBlob
  else if mode = modeFILE_EXECUTABLE then treeModeBlobExecutable
  else if mode = modeSYMLINK then treeModeLink
  else if mode = modeDIR then treeModeTree
  else if mode = modeCOMMIT then treeModeCommit
  else treeModeBlob

/-- One entry of a git tree object (gix::objs::tree::Entry): mode,
filename and object id. -/
structure TreeEntry where
  mode : Nat
  filename : List Nat
  oid : Nat
deriving DecidableEq

/-- A git tree object (gix::objs::Tree). -/
structure TreeObj where
  entries : List TreeEntry
deriving DecidableEq

/-- Comparator of the tree_entries.sort_by call in build_tree_from_index:
byte order of filenames. -/
def treeEntryLe (a b : TreeEntry) : Prop := a.filename ≤ b.filename

instance : DecidableRel treeEntryLe := fun a b =>
  inferInstanceAs (Decidable (a.filename ≤ b.filename))

instance : IsTotal TreeEntry treeEntryLe := ⟨fun a b => le_total a.filename b.filename⟩

instance : IsTrans TreeEntry treeEntryLe := ⟨fun _ _ _ h1 h2 => le_trans h1 h2⟩

/-- Translation of build_tree_from_index (src/commands/bump/tree.rs):
group every entry into the root level — the top-level branch and the
flattened subdirectory branch push the same (path parts, mode, id) triple
— then rebuild each filename by joining its path parts, convert the mode,
sort the tree entries by filename and form the tree object. -/
def build_tree_from_index (index_state : IndexState) : TreeObj :=
  let rootEntries : List (List (List Nat) × Nat × Nat) :=
    index_state.foldl
      (fun acc entry =>
        let path_parts := splitSep entry.path
        if path_parts.length = 1 then acc ++ [(path_parts, entry.mode, entry.id)]
        else acc ++ [(path_parts, entry.mode, entry.id)])
      []
  let tree_entries : List TreeEntry :=
    rootEntries.map (fun x => ⟨convert_mode_to_tree_mode x.2.1, joinSep x.1, x.2.2⟩)
  ⟨tree_entries.insertionSort treeEntryLe⟩

/-- A content-addressed object store for tree objects, modelled as the
list of written objects; an object id is a position in it. -/
abbrev ObjectStore := List TreeObj

/-- Repository::write_object: store the tree, returning the extended store
and the object id of the written tree. -/
def write_object (store : ObjectStore) (t : TreeObj) : ObjectStore × Nat :=
  (store ++ [t], store.length)

/-- Read a tree object back from the store by its id. -/
def read_object (store : ObjectStore) (id : Nat) : Option TreeObj :=
  store[id]?

/-- The five index modes that convert_mode_to_tree_mode maps without the
fallback. -/
def recognizedModes : List Nat :=
  [modeFILE, modeFILE_EXECUTABLE, modeSYMLINK, modeDIR, modeCOMMIT]

/-- The (path, mode, content id) triple of an index entry. -/
def indexTriple (e : IndexEntry) : List Nat × Nat × Nat := (e.path, e.mode, e.id)

/-- The (path, mode, content id) triple of a tree entry. -/
def treeTriple (te : TreeEntry) : List Nat × Nat × Nat := (te.filename, te.mode, te.oid)

theorem entryPosition_eq_none {pred : IndexEntry → Bool} :
    ∀ {l : List IndexEntry}, entryPosition pred l = none → ∀ x ∈ l, pred x = false := by
  intro l
  induction l with
  | nil => intro _ x hx; cases hx
  | cons e rest ih =>
    intro h x hx
    simp only [entryPosition] at h
    by_cases hpe : pred e = true
    · rw [if_pos hpe] at h; cases h
    · rcases List.mem_cons.mp hx with hxe | hxr
      · subst hxe
        exact Bool.eq_false_iff.mpr hpe
      · rw [if_neg hpe] at h
        cases hrest : entryPosition pred rest with
        | none => exact ih hrest x hxr
        | some j => rw [hrest] at h; cases h

theorem erasePos_eq_filter (p : List Nat) :
    ∀ (s : IndexState), ((s.map IndexEntry.path).Nodup) →
      (match entryPosition (fun e => e.path = p) s with
        | some pos => s.eraseIdx pos
        | none => s)
      = s.filter (fun e => !decide (e.path = p)) := by
  intro s
  induction s with
  | nil => intro _; rfl
  | cons e rest ih =>
    intro hnd
    rw [List.map_cons, List.nodup_cons] at hnd
    obtain ⟨hne, hndrest⟩ := hnd
    by_cases hep : e.path = p
    · have hfilter : rest.filter (fun e => !decide (e.path = p)) = rest :=
        List.filter_eq_self.mpr (fun x hx => by
          have hxp : x.path ≠ p := by
            intro hxp
            apply hne
            rw [hep, ← hxp]
            exact List.mem_map_of_mem IndexEntry.path hx
          simp [hxp])
      simp [entryPosition, hep, List.filter_cons, hfilter]
    · cases hpos : entryPosition (fun e => e.path = p) rest with
      | none =>
        have hall := entryPosition_eq_none hpos
        have hfilter : rest.filter (fun e => !decide (e.path = p)) = rest :=
          List.filter_eq_self.mpr (fun x hx => by simp [of_decide_eq_false (hall x hx)])
        simp [entryPosition, hep, hpos, List.filter_cons, hfilter]
      | some j =>
        have ihr := ih hndrest
        rw [hpos] at ihr
        simp only [] at ihr
        simp [entryPosition, hep, hpos, List.filter_cons, ihr]

theorem stage_file_eq_of_nodup (p : List Nat) (b : Nat) (s : IndexState)
    (h : (s.map IndexEntry.path).Nodup) :
    stage_file p b s =
      sort_entries (s.filter (fun e => !decide (e.path = p)) ++ [stagedEntry p b]) := by
  unfold stage_file
  rw [erasePos_eq_filter p s h]

theorem strictSorted_nodup_paths {s : IndexState} (h : StrictSorted s) :
    (s.map IndexEntry.path).Nodup := by
  show (s.map IndexEntry.path).Pairwise (fun a b => a ≠ b)
  rw [List.pairwise_map]
  exact h.imp (fun hlt => ne_of_lt hlt)

theorem stage_file_strictSorted (p : List Nat) (b : Nat) {s : IndexState}
    (hs : StrictSorted s) : StrictSorted (stage_file p b s) := by
  have hnd := strictSorted_nodup_paths hs
  have heq := stage_file_eq_of_nodup p b s hnd
  have hsorted : (stage_file p b s).Pairwise entryLe := by
    rw [heq]
    exact List.sorted_insertionSort entryLe _
  have hperm : List.Perm (stage_file p b s)
      (s.filter (fun e => !decide (e.path = p)) ++ [stagedEntry p b]) := by
    rw [heq]
    exact List.perm_insertionSort entryLe _
  have hndres : ((stage_file p b s).map IndexEntry.path).Nodup := by
    have h2 : (((s.filter (fun e => !decide (e.path = p)) ++ [stagedEntry p b]).map
        IndexEntry.path)).Nodup := by
      rw [List.map_append]
      apply List.Nodup.append
      · exact ((List.filter_sublist s).map IndexEntry.path).nodup hnd
      · simp
      · intro x hx hx2
        rcases List.mem_map.mp hx with ⟨e, he, hex⟩
        rcases List.mem_filter.mp he with ⟨_, hef⟩
        have : e.path ≠ p := by simpa using hef
        simp only [List.map_cons, List.map_nil, List.mem_singleton] at hx2
        exact this (hex ▸ hx2 ▸ rfl)
    exact ((hperm.map IndexEntry.path).nodup_iff).mpr h2
  have hnepaths : (stage_file p b s).Pairwise (fun a b => a.path ≠ b.path) := by
    have := hndres
    rw [show ((stage_file p b s).map IndexEntry.path).Nodup =
      ((stage_file p b s).map IndexEntry.path).Pairwise (fun a b => a ≠ b) from rfl,
      List.pairwise_map] at this
    exact this
  exact (hsorted.and hnepaths).imp (fun hab => lt_of_le_of_ne hab.1 hab.2)

theorem stage_file_filter_staged (p : List Nat) (b : Nat) {s : IndexState}
    (hs : StrictSorted s) :
    (stage_file p b s).filter (fun e => decide (e.path = p)) = [stagedEntry p b] := by
  have hnd := strictSorted_nodup_paths hs
  have heq := stage_file_eq_of_nodup p b s hnd
  have hperm : List.Perm (stage_file p b s)
      (s.filter (fun e => !decide (e.path = p)) ++ [stagedEntry p b]) := by
    rw [heq]
    exact List.perm_insertionSort entryLe _
  have h2 := hperm.filter (fun e => decide (e.path = p))
  rw [List.filter_append] at h2
  have h3 : (s.filter (fun e => !decide (e.path = p))).filter
      (fun e => decide (e.path = p)) = [] := by
    rw [List.filter_eq_nil_iff]
    intro e he
    rcases List.mem_filter.mp he with ⟨_, hef⟩
    simpa using hef
  have h4 : [stagedEntry p b].filter (fun e => decide (e.path = p)) = [stagedEntry p b] := by
    simp [stagedEntry]
  rw [h3, h4, List.nil_append] at h2
  exact List.perm_singleton.mp h2

/-- C2: for every starting index state satisfying the strictly-sorted
no-duplicate invariant and any sequence of stage operations, the resulting
state's entries are again strictly sorted by path in byte order with no
duplicate paths. -/
theorem stageSeq_strictSorted (s : IndexState) (hs : StrictSorted s)
    (ops : List (List Nat × Nat)) : StrictSorted (stageSeq ops s) := by
  induction ops generalizing s with
  | nil => exact hs
  | cons op rest ih => exact ih _ (stage_file_strictSorted op.1 op.2 hs)

/-- Witness for C2 at a concrete sorted state and operation sequence. -/
theorem stageSeq_strictSorted_witness :
    StrictSorted (stageSeq [([98], 2), ([97], 3)]
      [⟨Stat.zeroed, 1, 0, modeFILE, [97]⟩]) :=
  stageSeq_strictSorted [⟨Stat.zeroed, 1, 0, modeFILE, [97]⟩] (by decide)
    [([98], 2), ([97], 3)]

/-- C8: staging path p with blob id b into a state satisfying the index
invariant yields a state whose entries with path p are exactly the one new
entry carrying blob id b, while every entry at any other path is passed
through unchanged in all fields. -/
theorem stage_file_frame (p : List Nat) (b : Nat) (s : IndexState) (hs : StrictSorted s) :
    (stage_file p b s).filter (fun e => decide (e.path = p)) = [stagedEntry p b] ∧
      ∀ e : IndexEntry, e.path ≠ p → (e ∈ stage_file p b s ↔ e ∈ s) := by
  refine ⟨stage_file_filter_staged p b hs, ?_⟩
  intro e hep
  have hnd := strictSorted_nodup_paths hs
  have heq := stage_file_eq_of_nodup p b s hnd
  rw [heq]
  simp only [sort_entries, List.mem_insertionSort, List.mem_append, List.mem_filter,
    List.mem_singleton]
  constructor
  · rintro (⟨hmem, _⟩ | hstaged)
    · exact hmem
    · exact absurd (by rw [hstaged]; exact rfl) hep
  · intro hmem
    exact Or.inl ⟨hmem, by simp [hep]⟩

/-- Witness for C8: the staged-path part of the frame property at a
concrete state. -/
theorem stage_file_frame_witness :
    (stage_file [98] 7 [⟨Stat.zeroed, 1, 0, modeFILE, [97]⟩]).filter
      (fun e => decide (e.path = [98])) = [stagedEntry [98] 7] :=
  (stage_file_frame [98] 7 [⟨Stat.zeroed, 1, 0, modeFILE, [97]⟩] (by decide)).1

/-- C10: the entry stage_file records for the staged path always carries
regular-file mode, empty flags and zeroed stat metadata, and the given
blob id — whatever mode, flags or stat any pre-existing entry at that path
had. -/
theorem stage_file_staged_fields (p : List Nat) (b : Nat) (s : IndexState)
    (hs : StrictSorted s) :
    ∀ e ∈ stage_file p b s, e.path = p →
      e.id = b ∧ e.mode = modeFILE ∧ e.flags = flagsEmpty ∧ e.stat = Stat.zeroed := by
  intro e he hep
  have h1 := stage_file_filter_staged p b hs
  have h2 : e ∈ (stage_file p b s).filter (fun e => decide (e.path = p)) :=
    List.mem_filter.mpr ⟨he, by simp [hep]⟩
  rw [h1, List.mem_singleton] at h2
  rw [h2]
  exact ⟨rfl, rfl, rfl, rfl⟩

/-- Witness for C10: staging over an executable entry records a plain
regular-file entry. -/
theorem stage_file_staged_fields_witness :
    (stagedEntry [97] 9).id = 9 ∧ (stagedEntry [97] 9).mode = modeFILE ∧
      (stagedEntry [97] 9).flags = flagsEmpty ∧ (stagedEntry [97] 9).stat = Stat.zeroed :=
  stage_file_staged_fields [97] 9 [⟨Stat.zeroed, 5, 12, modeFILE_EXECUTABLE, [97]⟩]
    (by decide) (stagedEntry [97] 9) (by decide) rfl

/-- C4 counterexample: at a concrete index path and serialized state, the
persist step of stage_file — File::create on the index path followed by
write_to — is not an atomic write-to-temp-then-rename persist: it renames
nothing and creates and writes the index path directly. -/
theorem stage_file_persist_not_atomic :
    ¬ AtomicPersistSpec (stage_file_persist_ops [105] [1, 2, 3]) [105] := by
  rintro ⟨⟨tmp, _, hmem⟩, _⟩
  simp [stage_file_persist_ops] at hmem

/-- C4 amended: the persist step of stage_file writes the index in place —
every filesystem operation it performs targets the index path itself and
none is a rename — so a crash in the middle of the write can leave a
partially written index file. -/
theorem stage_file_persist_in_place (index_path serialized : List Nat) :
    (stage_file_persist_ops index_path serialized).all
      (fun op => decide (op.target = index_path) && !op.isRenameOp) = true := by
  simp [stage_file_persist_ops, FsOp.target, FsOp.isRenameOp]

theorem splitSep_ne_nil : ∀ (p : List Nat), splitSep p ≠ []
  | [] => by simp [splitSep]
  | b :: rest => by
    simp only [splitSep]
    split
    · simp
    · split <;> simp

theorem joinSep_splitSep : ∀ (p : List Nat), joinSep (splitSep p) = p := by
  intro p
  induction p with
  | nil => rfl
  | cons b rest ih =>
    by_cases hb : b = 47
    · subst hb
      simp only [splitSep, if_pos rfl]
      cases hsp : splitSep rest with
      | nil => exact absurd hsp (splitSep_ne_nil rest)
      | cons l ls =>
        rw [hsp] at ih
        simp [joinSep, ih]
    · simp only [splitSep, if_neg hb]
      cases hsp : splitSep rest with
      | nil => exact absurd hsp (splitSep_ne_nil rest)
      | cons l ls =>
        rw [hsp] at ih
        cases ls with
        | nil => simp [joinSep] at ih ⊢; exact ih
        | cons l2 ls2 => simp [joinSep] at ih ⊢; simp [ih]

theorem flatMap_single {α β : Type} (g : α → β) (l : List α) :
    l.flatMap (fun x => [g x]) = l.map g := by
  induction l with
  | nil => rfl
  | cons x xs ih => simp [ih]

theorem convert_mode_of_recognized {m : Nat} (h : m ∈ recognizedModes) :
    convert_mode_to_tree_mode m = m := by
  simp only [recognizedModes, List.mem_cons, List.not_mem_nil, or_false] at h
  rcases h with rfl | rfl | rfl | rfl | rfl <;> rfl

theorem build_tree_entries_eq (s : IndexState) :
    (build_tree_from_index s).entries =
      (s.map (fun e =>
        (⟨convert_mode_to_tree_mode e.mode, joinSep (splitSep e.path), e.id⟩ :
          TreeEntry))).insertionSort treeEntryLe := by
  unfold build_tree_from_index
  have hstep :
      (fun (acc : List (List (List Nat) × Nat × Nat)) (entry : IndexEntry) =>
        let path_parts := splitSep entry.path
        if path_parts.length = 1 then acc ++ [(path_parts, entry.mode, entry.id)]
        else acc ++ [(path_parts, entry.mode, entry.id)])
      = fun acc entry => acc ++ [(splitSep entry.path, entry.mode, entry.id)] := by
    funext acc entry
    simp
  rw [hstep, foldl_append_flatMap, List.nil_append, flatMap_single]
  simp [List.map_map, Function.comp_def]

/-- C7: every tree produced by build_tree_from_index has its entries
sorted by filename in byte order before it is written. -/
theorem build_tree_sorted (s : IndexState) :
    ((build_tree_from_index s).entries).Pairwise treeEntryLe := by
  rw [build_tree_entries_eq]
  exact List.sorted_insertionSort treeEntryLe _

/-- C9: convert_mode_to_tree_mode maps the regular-file mode to blob mode,
the executable-file mode to executable-blob mode, the symlink mode to link
mode, the directory mode to tree mode, the submodule mode to commit-link
mode, and every other mode value to plain blob mode. -/
theorem convert_mode_cases :
    convert_mode_to_tree_mode modeFILE = treeModeBlob ∧
    convert_mode_to_tree_mode modeFILE_EXECUTABLE = treeModeBlobExecutable ∧
    convert_mode_to_tree_mode modeSYMLINK = treeModeLink ∧
    convert_mode_to_tree_mode modeDIR = treeModeTree ∧
    convert_mode_to_tree_mode modeCOMMIT = treeModeCommit ∧
    ∀ mode : Nat, mode ≠ modeFILE → mode ≠ modeFILE_EXECUTABLE → mode ≠ modeSYMLINK →
      mode ≠ modeDIR → mode ≠ modeCOMMIT →
      convert_mode_to_tree_mode mode = treeModeBlob := by
  refine ⟨by decide, by decide, by decide, by decide, by decide, ?_⟩
  intro mode h1 h2 h3 h4 h5
  simp [convert_mode_to_tree_mode, h1, h2, h3, h4, h5]

/-- Witness for C9 at the unrecognized mode value 0, which falls back to
the plain blob mode. -/
theorem convert_mode_cases_witness : convert_mode_to_tree_mode 0 = treeModeBlob :=
  convert_mode_cases.2.2.2.2.2 0 (by decide) (by decide) (by decide) (by decide) (by decide)

/-- C6 counterexample: an index entry with the unrecognized mode value 0
is altered by the index-to-tree conversion — the tree read back holds the
blob mode, not 0 — so the round trip does not preserve the (path, mode,
content id) multiset for every index state. -/
theorem build_tree_round_trip_counterexample :
    read_object
        (write_object [] (build_tree_from_index [⟨Stat.zeroed, 1, 0, 0, [97]⟩])).1
        (write_object [] (build_tree_from_index [⟨Stat.zeroed, 1, 0, 0, [97]⟩])).2 =
      some (build_tree_from_index [⟨Stat.zeroed, 1, 0, 0, [97]⟩]) ∧
    ¬ List.Perm
        ((build_tree_from_index [⟨Stat.zeroed, 1, 0, 0, [97]⟩]).entries.map treeTriple)
        ([(⟨Stat.zeroed, 1, 0, 0, [97]⟩ : IndexEntry)].map indexTriple) :=
  ⟨rfl, by decide⟩

/-- C6 amended: for every index state all of whose entry modes are among
the five recognized modes, writing the tree built by build_tree_from_index
and reading it back yields exactly the same multiset of (path, mode,
content id) triples as the index's entries. -/
theorem build_tree_round_trip (store : ObjectStore) (s : IndexState)
    (hm : ∀ e ∈ s, e.mode ∈ recognizedModes) :
    read_object (write_object store (build_tree_from_index s)).1
        (write_object store (build_tree_from_index s)).2 =
      some (build_tree_from_index s) ∧
    List.Perm ((build_tree_from_index s).entries.map treeTriple) (s.map indexTriple) := by
  constructor
  · simp [read_object, write_object]
  · rw [build_tree_entries_eq]
    have hperm := (List.perm_insertionSort treeEntryLe
      (s.map (fun e =>
        (⟨convert_mode_to_tree_mode e.mode, joinSep (splitSep e.path), e.id⟩ :
          TreeEntry)))).map treeTriple
    apply hperm.trans
    rw [List.map_map]
    apply List.Perm.of_eq
    apply List.map_congr_left
    intro e he
    simp only [Function.comp_apply, treeTriple, indexTriple]
    rw [joinSep_splitSep, convert_mode_of_recognized (hm e he)]

/-- Witness for C6 amended at a concrete two-entry state with recognized
modes. -/
theorem build_tree_round_trip_witness :
    read_object
        (write_object []
          (build_tree_from_index
            [⟨Stat.zeroed, 1, 0, modeFILE, [98]⟩,
             ⟨Stat.zeroed, 2, 0, modeSYMLINK, [97, 47, 99]⟩])).1
        (write_object []
          (build_tree_from_index
            [⟨Stat.zeroed, 1, 0, modeFILE, [98]⟩,
             ⟨Stat.zeroed, 2, 0, modeSYMLINK, [97, 47, 99]⟩])).2 =
      some (build_tree_from_index
        [⟨Stat.zeroed, 1, 0, modeFILE, [98]⟩,
         ⟨Stat.zeroed, 2, 0, modeSYMLINK, [97, 47, 99]⟩]) ∧
    List.Perm
      ((build_tree_from_index
        [⟨Stat.zeroed, 1, 0, modeFILE, [98]⟩,
         ⟨Stat.zeroed, 2, 0, modeSYMLINK, [97, 47, 99]⟩]).entries.map treeTriple)
      ([⟨Stat.zeroed, 1, 0, modeFILE, [98]⟩,
        (⟨Stat.zeroed, 2, 0, modeSYMLINK, [97, 47, 99]⟩ : IndexEntry)].map indexTriple) :=
  build_tree_round_trip []
    [⟨Stat.zeroed, 1, 0, modeFILE, [98]⟩, ⟨Stat.zeroed, 2, 0, modeSYMLINK, [97, 47, 99]⟩]
    (by decide)

end VersionInfo
